import Mathlib

/-!
Shallow embedding of the course-scheduling optimizer
(`src/course.py`, `src/utils.py`, `src/greedy_algorithm.py`,
`src/branch_and_bound_algorithm.py`, `src/ilp_algorithm.py`).

Times and gap penalties (Python floats) are modelled as rationals `ℚ`;
credits (Python ints) as `ℤ`.  Python's stable `sorted`/`list.sort` is
modelled by `List.insertionSort` with a `key a ≤ key b` relation, which
is stable in the same sense.  The branch-and-bound worklist loops are
modelled with an explicit fuel parameter `2 ^ (n + 1)` which strictly
exceeds the number of nodes a run over `n` eligible courses can ever
pop (the search tree is binary with depth `n`, so it has at most
`2 ^ (n + 1) - 1` nodes), so the fuel never runs out on the modelled
executions.
-/

/-- `Course` dataclass of `src/course.py`. -/
structure Course where
  id : String
  name : String
  start_time : ℚ
  end_time : ℚ
  credits : ℤ
  prerequisites : List String
deriving DecidableEq, Repr

/-- `Course.__post_init__` validation: building a course fails (returns
`none`, mirroring the raised `ValueError`) iff `start_time ≥ end_time`
or `credits ≤ 0`. -/
def mkCourse (id name : String) (start_time end_time : ℚ) (credits : ℤ)
    (prerequisites : List String) : Option Course :=
  if end_time ≤ start_time then none
  else if credits ≤ 0 then none
  else some ⟨id, name, start_time, end_time, credits, prerequisites⟩

/-- `Course.conflicts_with`: interval overlap,
`not (self.end_time <= other.start_time or self.start_time >= other.end_time)`. -/
def Course.conflicts_with (a b : Course) : Bool :=
  !(decide (a.end_time ≤ b.start_time) || decide (b.end_time ≤ a.start_time))

/-- `Course.gap_to`: idle time from the end of `a` to the start of `b`,
floored at zero when `b` starts before `a` ends. -/
def Course.gap_to (a b : Course) : ℚ :=
  if b.start_time < a.end_time then 0 else b.start_time - a.end_time

/-- Sort key relation for `sorted(key=lambda c: c.start_time)`. -/
def startLe (a b : Course) : Prop := a.start_time ≤ b.start_time

/-- Sort key relation for `sorted(key=lambda c: c.end_time)`. -/
def endLe (a b : Course) : Prop := a.end_time ≤ b.end_time

/-- Sort key relation for `sorted(key=lambda c: c.end_time / c.credits)`. -/
def ratioLe (a b : Course) : Prop :=
  a.end_time / (a.credits : ℚ) ≤ b.end_time / (b.credits : ℚ)

/-- Sort key relation for `sort(key=lambda c: -c.credits)`. -/
def credDescLe (a b : Course) : Prop := b.credits ≤ a.credits

/-- Sort key relation for `sorted(key=lambda c: (-c.credits, c.end_time))`
(lexicographic on the Python tuple key). -/
def maxKeyLe (a b : Course) : Prop :=
  b.credits < a.credits ∨ (a.credits = b.credits ∧ a.end_time ≤ b.end_time)

instance : DecidableRel startLe :=
  fun a b => inferInstanceAs (Decidable (a.start_time ≤ b.start_time))

instance : DecidableRel endLe :=
  fun a b => inferInstanceAs (Decidable (a.end_time ≤ b.end_time))

instance : DecidableRel ratioLe :=
  fun a b =>
    inferInstanceAs (Decidable (a.end_time / (a.credits : ℚ) ≤ b.end_time / (b.credits : ℚ)))

instance : DecidableRel credDescLe :=
  fun a b => inferInstanceAs (Decidable (b.credits ≤ a.credits))

instance : DecidableRel maxKeyLe :=
  fun a b =>
    inferInstanceAs
      (Decidable (b.credits < a.credits ∨ (a.credits = b.credits ∧ a.end_time ≤ b.end_time)))

instance : IsTotal Course startLe := ⟨fun _ _ => le_total _ _⟩

instance : IsTrans Course startLe := ⟨fun _ _ _ => le_trans⟩

instance : IsTotal Course endLe := ⟨fun _ _ => le_total _ _⟩

instance : IsTrans Course endLe := ⟨fun _ _ _ => le_trans⟩

instance : IsTotal Course ratioLe := ⟨fun _ _ => le_total _ _⟩

instance : IsTrans Course ratioLe := ⟨fun _ _ _ => le_trans⟩

instance : IsTotal Course credDescLe := ⟨fun _ _ => le_total _ _⟩

instance : IsTrans Course credDescLe := ⟨fun _ _ _ h h' => le_trans h' h⟩

instance : IsTotal Course maxKeyLe := by
  constructor
  intro a b
  rcases lt_trichotomy a.credits b.credits with h | h | h
  · exact Or.inr (Or.inl h)
  · rcases le_total a.end_time b.end_time with h' | h'
    · exact Or.inl (Or.inr ⟨h, h'⟩)
    · exact Or.inr (Or.inr ⟨h.symm, h'⟩)
  · exact Or.inl (Or.inl h)

instance : IsTrans Course maxKeyLe := by
  constructor
  intro a b c hab hbc
  rcases hab with h | ⟨h1, h2⟩
  · rcases hbc with h' | ⟨h1', _⟩
    · exact Or.inl (h'.trans h)
    · exact Or.inl (h1' ▸ h)
  · rcases hbc with h' | ⟨h1', h2'⟩
    · exact Or.inl (h1 ▸ h')
    · exact Or.inr ⟨h1.trans h1', h2.trans h2'⟩

/-- Strict start-time comparison (used to state uniqueness of the
start-time sort when start times are pairwise distinct). -/
def startLt (a b : Course) : Prop := a.start_time < b.start_time

instance : IsAntisymm Course startLt :=
  ⟨fun _ _ h h' => absurd h' (not_lt.2 h.le)⟩

/-- Sum of `gap_to` over consecutive pairs of an (already sorted) list,
mirroring the accumulation loop of `calculate_total_gap`. -/
def sumConsecGaps : List Course → ℚ
  | a :: b :: l => a.gap_to b + sumConsecGaps (b :: l)
  | _ => 0

/-- `calculate_total_gap` of `src/utils.py`: sort by `start_time`
(stably), then sum gaps over consecutive pairs; lists of at most one
course give `0.0`. -/
def calculate_total_gap (courses : List Course) : ℚ :=
  if courses.length ≤ 1 then 0
  else sumConsecGaps (List.insertionSort startLe courses)

/-- `calculate_total_credits` of `src/utils.py`. -/
def calculate_total_credits (courses : List Course) : ℤ :=
  (courses.map Course.credits).sum

/-- The per-course eligibility test shared by every solver:
`all(prereq in completed_course_ids for prereq in (course.prerequisites or []))`. -/
def prereqsMet (completed : List String) (c : Course) : Bool :=
  c.prerequisites.all fun p => completed.contains p

/-- The eligibility filter shared by every solver. -/
def eligibleCourses (catalog : List Course) (completed : List String) : List Course :=
  catalog.filter (prereqsMet completed)

/-- The greedy acceptance scan shared by the three greedy variants:
walk the sorted candidates, accepting a course iff it conflicts with no
course accepted so far (`selected_courses.append(course)`). -/
def selectNonConflicting (sel : List Course) : List Course → List Course
  | [] => sel
  | c :: rest =>
    if sel.any (fun s => c.conflicts_with s) then selectNonConflicting sel rest
    else selectNonConflicting (sel ++ [c]) rest

/-- `greedy_schedule_max_credits` of `src/greedy_algorithm.py`. -/
def greedy_schedule_max_credits (catalog : List Course) (completed : List String) :
    List Course × ℤ × ℚ :=
  let el := eligibleCourses catalog completed
  let sorted := List.insertionSort maxKeyLe el
  let s := selectNonConflicting [] sorted
  (s, calculate_total_credits s, calculate_total_gap s)

/-- `greedy_schedule_min_gaps` of `src/greedy_algorithm.py`. -/
def greedy_schedule_min_gaps (catalog : List Course) (completed : List String) :
    List Course × ℤ × ℚ :=
  let el := eligibleCourses catalog completed
  let sorted := List.insertionSort endLe el
  let s := selectNonConflicting [] sorted
  (s, calculate_total_credits s, calculate_total_gap s)

/-- `greedy_schedule` (combined objective) of `src/greedy_algorithm.py`. -/
def greedy_schedule (catalog : List Course) (completed : List String) :
    List Course × ℤ × ℚ :=
  let el := eligibleCourses catalog completed
  let sorted := List.insertionSort ratioLe el
  let s := selectNonConflicting [] sorted
  (s, calculate_total_credits s, calculate_total_gap s)

/-- `BranchAndBoundNode` of `src/branch_and_bound_algorithm.py`. -/
structure BBNode where
  level : ℕ
  selected : List Course
  credits : ℤ
  gap : ℚ
  bound : ℚ
deriving DecidableEq, Repr

/-- `sum(c.credits for c in eligible_courses[node.level:])`. -/
def remainingCredits (eligible : List Course) (level : ℕ) : ℤ :=
  ((eligible.drop level).map Course.credits).sum

/-- `calculate_upper_bound` of `src/branch_and_bound_algorithm.py`
(the `objective` argument is the Python string literal). -/
def calculate_upper_bound (node : BBNode) (eligible : List Course) (objective : String)
    (gap_penalty : ℚ) : ℚ :=
  if objective = "max_credits" then
    (node.credits : ℚ) + (remainingCredits eligible node.level : ℚ)
  else if objective = "min_gaps" then node.gap
  else (node.credits : ℚ) + (remainingCredits eligible node.level : ℚ) - gap_penalty * node.gap

/-- Comparison against a best value where `none` stands for the Python
`float('inf')` / `float('-inf')` sentinel: `beatsHigh b x` is "`x` is
strictly greater than the incumbent value `b`" (everything beats
`-inf`). -/
def beatsHigh : Option ℚ → ℚ → Bool
  | none, _ => true
  | some b, x => decide (b < x)

/-- `beatsLow b x` is "`x` is strictly smaller than the incumbent value
`b`" (everything beats `+inf`). -/
def beatsLow : Option ℚ → ℚ → Bool
  | none, _ => true
  | some b, x => decide (x < b)

/-- Children generated (in stack order: the later-pushed exclude child
is popped first) from a popped non-terminal node of
`branch_and_bound_schedule_max_credits`.  The include child exists only
when the current course conflicts with nothing selected; each child is
pushed only if its fresh bound strictly exceeds the incumbent credits. -/
def bbMaxChildren (eligible : List Course) (bestCredits : ℤ) (node : BBNode) :
    List BBNode :=
  match eligible.drop node.level with
  | [] => []
  | cur :: _ =>
    let inc :=
      if node.selected.any (fun s => cur.conflicts_with s) then []
      else
        let ns := node.selected ++ [cur]
        let ncr := node.credits + cur.credits
        let ng := calculate_total_gap ns
        let nb := calculate_upper_bound ⟨node.level + 1, ns, ncr, ng, 0⟩ eligible
          "max_credits" (1 / 10)
        if (bestCredits : ℚ) < nb then [⟨node.level + 1, ns, ncr, ng, nb⟩] else []
    let exc :=
      let nb := calculate_upper_bound ⟨node.level + 1, node.selected, node.credits, node.gap, 0⟩
        eligible "max_credits" (1 / 10)
      if (bestCredits : ℚ) < nb then
        [⟨node.level + 1, node.selected, node.credits, node.gap, nb⟩]
      else []
    exc ++ inc

/-- The `while queue:` worklist of `branch_and_bound_schedule_max_credits`,
with explicit fuel.  State: stack, best solution, best credits, best gap. -/
def bbMaxLoop (eligible : List Course) :
    ℕ → List BBNode → List Course → ℤ → ℚ → List Course × ℤ × ℚ
  | 0, _, sol, cr, g => (sol, cr, g)
  | _ + 1, [], sol, cr, g => (sol, cr, g)
  | f + 1, node :: rest, sol, cr, g =>
    if node.bound ≤ (cr : ℚ) then bbMaxLoop eligible f rest sol cr g
    else
      match eligible.drop node.level with
      | [] =>
        if cr < node.credits then
          bbMaxLoop eligible f rest node.selected node.credits (calculate_total_gap node.selected)
        else bbMaxLoop eligible f rest sol cr g
      | _ :: _ => bbMaxLoop eligible f (bbMaxChildren eligible cr node ++ rest) sol cr g

/-- `branch_and_bound_schedule_max_credits` of
`src/branch_and_bound_algorithm.py`. -/
def branch_and_bound_schedule_max_credits (catalog : List Course) (completed : List String) :
    List Course × ℤ × ℚ :=
  let el := eligibleCourses catalog completed
  if el = [] then ([], 0, 0)
  else
    let sorted := List.insertionSort credDescLe el
    bbMaxLoop sorted (2 ^ (sorted.length + 1))
      [⟨0, [], 0, 0, (remainingCredits sorted 0 : ℚ)⟩] [] 0 0

/-- Children generated (in stack order) from a popped non-terminal node
of `branch_and_bound_schedule_min_gaps`: the include child exists only
when the current course is conflict-free against the partial selection,
and — unlike the other two variants — both children are pushed with no
bound test at generation time. -/
def bbMinChildren (eligible : List Course) (node : BBNode) : List BBNode :=
  match eligible.drop node.level with
  | [] => []
  | cur :: _ =>
    let inc :=
      if node.selected.any (fun s => cur.conflicts_with s) then []
      else
        let ns := node.selected ++ [cur]
        let ng := calculate_total_gap ns
        [⟨node.level + 1, ns, node.credits + cur.credits, ng, ng⟩]
    let exc := [⟨node.level + 1, node.selected, node.credits, node.gap, node.gap⟩]
    exc ++ inc

/-- The `while queue:` worklist of `branch_and_bound_schedule_min_gaps`,
with explicit fuel.  State: stack, best solution, best credits, best gap
(`none` = the `float('inf')` sentinel).  The extra `Bool` output
accumulates whether some iteration pushed a child whose fresh bound
(its gap) could no longer beat the current incumbent. -/
def bbMinLoop (eligible : List Course) :
    ℕ → List BBNode → List Course → ℤ → Option ℚ → Bool →
      (List Course × ℤ × Option ℚ) × Bool
  | 0, _, sol, cr, bg, bad => ((sol, cr, bg), bad)
  | _ + 1, [], sol, cr, bg, bad => ((sol, cr, bg), bad)
  | f + 1, node :: rest, sol, cr, bg, bad =>
    if beatsLow bg node.gap then
      match eligible.drop node.level with
      | [] =>
        if node.selected.length ≠ 0 ∧ beatsLow bg node.gap ∨
            node.selected.length ≠ 0 ∧ some node.gap = bg ∧ cr < node.credits then
          bbMinLoop eligible f rest node.selected node.credits (some node.gap) bad
        else bbMinLoop eligible f rest sol cr bg bad
      | _ :: _ =>
        let ch := bbMinChildren eligible node
        bbMinLoop eligible f (ch ++ rest) sol cr bg
          (bad || ch.any fun nd => !beatsLow bg nd.gap)
    else bbMinLoop eligible f rest sol cr bg bad

/-- `branch_and_bound_schedule_min_gaps` of
`src/branch_and_bound_algorithm.py`. -/
def branch_and_bound_schedule_min_gaps (catalog : List Course) (completed : List String) :
    List Course × ℤ × ℚ :=
  let el := eligibleCourses catalog completed
  if el = [] then ([], 0, 0)
  else
    let sorted := List.insertionSort endLe el
    let r := bbMinLoop sorted (2 ^ (sorted.length + 1)) [⟨0, [], 0, 0, 0⟩] [] 0 none false
    match r.1.2.2 with
    | none => ([], 0, 0)
    | some g => (r.1.1, r.1.2.1, g)

/-- Whether the `branch_and_bound_schedule_min_gaps` run on this input
ever pushes a child node whose freshly computed bound can no longer
beat the current incumbent. -/
def bnbMinGapsPushViolation (catalog : List Course) (completed : List String) : Bool :=
  let el := eligibleCourses catalog completed
  if el = [] then false
  else
    let sorted := List.insertionSort endLe el
    (bbMinLoop sorted (2 ^ (sorted.length + 1)) [⟨0, [], 0, 0, 0⟩] [] 0 none false).2

/-- Children generated (in stack order) from a popped non-terminal node
of the combined-objective `branch_and_bound_schedule`; each child is
pushed only if `new_bound - gap_penalty * child.gap` strictly exceeds
the incumbent objective. -/
def bbCombChildren (gap_penalty : ℚ) (eligible : List Course) (bestObj : Option ℚ)
    (node : BBNode) : List BBNode :=
  match eligible.drop node.level with
  | [] => []
  | cur :: _ =>
    let inc :=
      if node.selected.any (fun s => cur.conflicts_with s) then []
      else
        let ns := node.selected ++ [cur]
        let ncr := node.credits + cur.credits
        let ng := calculate_total_gap ns
        let nb := calculate_upper_bound ⟨node.level + 1, ns, ncr, ng, 0⟩ eligible
          "combined" gap_penalty
        if beatsHigh bestObj (nb - gap_penalty * ng) then
          [⟨node.level + 1, ns, ncr, ng, nb⟩]
        else []
    let exc :=
      let nb := calculate_upper_bound ⟨node.level + 1, node.selected, node.credits, node.gap, 0⟩
        eligible "combined" gap_penalty
      if beatsHigh bestObj (nb - gap_penalty * node.gap) then
        [⟨node.level + 1, node.selected, node.credits, node.gap, nb⟩]
      else []
    exc ++ inc

/-- The `while queue:` worklist of the combined-objective
`branch_and_bound_schedule`, with explicit fuel.  State: stack, best
solution, best objective (`none` = the `float('-inf')` sentinel), best
credits, best gap. -/
def bbCombLoop (gap_penalty : ℚ) (eligible : List Course) :
    ℕ → List BBNode → List Course → Option ℚ → ℤ → ℚ → List Course × ℤ × ℚ
  | 0, _, sol, _, cr, g => (sol, cr, g)
  | _ + 1, [], sol, _, cr, g => (sol, cr, g)
  | f + 1, node :: rest, sol, bo, cr, g =>
    if beatsHigh bo (node.bound - gap_penalty * node.gap) then
      match eligible.drop node.level with
      | [] =>
        if beatsHigh bo ((node.credits : ℚ) - gap_penalty * node.gap) then
          bbCombLoop gap_penalty eligible f rest node.selected
            (some ((node.credits : ℚ) - gap_penalty * node.gap)) node.credits node.gap
        else bbCombLoop gap_penalty eligible f rest sol bo cr g
      | _ :: _ =>
        bbCombLoop gap_penalty eligible f
          (bbCombChildren gap_penalty eligible bo node ++ rest) sol bo cr g
    else bbCombLoop gap_penalty eligible f rest sol bo cr g

/-- Combined-objective `branch_and_bound_schedule` of
`src/branch_and_bound_algorithm.py`. -/
def branch_and_bound_schedule (catalog : List Course) (completed : List String)
    (gap_penalty : ℚ) : List Course × ℤ × ℚ :=
  let el := eligibleCourses catalog completed
  if el = [] then ([], 0, 0)
  else
    let sorted := List.insertionSort ratioLe el
    bbCombLoop gap_penalty sorted (2 ^ (sorted.length + 1))
      [⟨0, [], 0, 0, (remainingCredits sorted 0 : ℚ)⟩] [] none 0 0

/-- Credits part of the ILP objective over one indicator assignment
(each eligible course paired with its binary variable). -/
def ilpCredits : List (Course × Bool) → ℤ
  | [] => 0
  | (c, b) :: rest => (if b then c.credits else 0) + ilpCredits rest

/-- Gap terms contributed by one course against every later-indexed
selected course that starts at/after its end, mirroring the
`y[(i, j)] * gap` terms of `ilp_schedule`. -/
def ilpGapAgainst (c : Course) : List (Course × Bool) → ℚ
  | [] => 0
  | (c', b') :: rest =>
    (if b' ∧ c.end_time ≤ c'.start_time then c'.start_time - c.end_time else 0) +
      ilpGapAgainst c rest

/-- Sum over all index pairs `i < j` of the pairwise gap terms the ILP
objective charges (a term exists whenever both courses are selected and
course `i` ends at/before course `j` starts — for every such pair, not
only chronologically consecutive ones). -/
def ilpGapSum : List (Course × Bool) → ℚ
  | [] => 0
  | (c, b) :: rest => (if b then ilpGapAgainst c rest else 0) + ilpGapSum rest

/-- The ILP objective of `ilp_schedule`:
`credits_term - pulp.lpSum(gap_terms)`. -/
def ilpObjective (gap_penalty : ℚ) (l : List (Course × Bool)) : ℚ :=
  (ilpCredits l : ℚ) - gap_penalty * ilpGapSum l

/-- The ILP hard constraints of `ilp_schedule`: for every index pair
`i < j` whose courses conflict, `x[i] + x[j] <= 1`. -/
def ilpFeasible (l : List (Course × Bool)) : Prop :=
  l.Pairwise fun a b => a.1.conflicts_with b.1 = true → ¬(a.2 = true ∧ b.2 = true)

instance : DecidablePred ilpFeasible := fun l =>
  inferInstanceAs (Decidable (l.Pairwise _))

/-- Reading the solution back: the courses whose indicator is `1`. -/
def selFromAssign (l : List (Course × Bool)) : List Course :=
  l.filterMap fun cb => if cb.2 then some cb.1 else none

/-- Modelled from the spec: the external mixed-integer solver invoked by
`ilp_schedule` (`pulp.PULP_CBC_CMD`, not part of `src/`) returns an
assignment of the binary indicator variables that satisfies every
conflict constraint and maximizes the ILP objective ("an external
general-purpose solver" handed "the following formulation", §4.4). -/
def ilpSolves (gap_penalty : ℚ) (eligible : List Course) (xs : List Bool) : Prop :=
  xs.length = eligible.length ∧ ilpFeasible (eligible.zip xs) ∧
    ∀ ys : List Bool, ys.length = eligible.length → ilpFeasible (eligible.zip ys) →
      ilpObjective gap_penalty (eligible.zip ys) ≤ ilpObjective gap_penalty (eligible.zip xs)

/-- `ilp_schedule` of `src/ilp_algorithm.py` as a relation between its
input and the returned triple (relational because the external solver
may pick any optimal assignment). -/
def ilp_schedule_returns (catalog : List Course) (completed : List String)
    (gap_penalty : ℚ) (res : List Course × ℤ × ℚ) : Prop :=
  if catalog = [] then res = ([], 0, 0)
  else
    let el := eligibleCourses catalog completed
    if el = [] then res = ([], 0, 0)
    else
      ∃ xs : List Bool, ilpSolves gap_penalty el xs ∧
        res = (selFromAssign (el.zip xs), calculate_total_credits (selFromAssign (el.zip xs)),
          calculate_total_gap (selFromAssign (el.zip xs)))

/-- The schedule invariant of §3/§8: no two distinct selected courses
overlap. -/
def pairwiseConflictFree (l : List Course) : Prop :=
  l.Pairwise fun a b => a.conflicts_with b = false

instance : DecidablePred pairwiseConflictFree := fun l =>
  inferInstanceAs (Decidable (l.Pairwise _))

/-- Course A of the C3 failing input: 0-1, 1 credit. -/
def cmbA : Course := ⟨"A", "A", 0, 1, 1, []⟩

/-- Course B of the C3 failing input: 2-3, 1 credit. -/
def cmbB : Course := ⟨"B", "B", 2, 3, 1, []⟩

/-- Course A of the C4 example catalog: 8-10. -/
def mgA : Course := ⟨"A", "A", 8, 10, 3, []⟩

/-- Course B of the C4 example catalog: 10-12 (no gap after A). -/
def mgB : Course := ⟨"B", "B", 10, 12, 3, []⟩

/-- Course C of the C4 example catalog: 15-17 (gap 3 after B). -/
def mgC : Course := ⟨"C", "C", 15, 17, 3, []⟩

/-- Course A of the C6 example catalog: 8-10, 2 credits. -/
def mcA : Course := ⟨"A", "A", 8, 10, 2, []⟩

/-- Course B of the C6 example catalog: 8-10, 5 credits (conflicts A). -/
def mcB : Course := ⟨"B", "B", 8, 10, 5, []⟩

/-- Course C of the C6 example catalog: 14-16, 3 credits. -/
def mcC : Course := ⟨"C", "C", 14, 16, 3, []⟩

/-- Course A of the C7 failing input: 0-1, 1 credit. -/
def ilpA : Course := ⟨"A", "A", 0, 1, 1, []⟩

/-- Course B of the C7 failing input: 1-2, 1 credit (back to back with A). -/
def ilpB : Course := ⟨"B", "B", 1, 2, 1, []⟩

/-- Course C of the C7 failing input: 3-4, 1 credit. -/
def ilpC : Course := ⟨"C", "C", 3, 4, 1, []⟩

/-- Course A of the C10 counterexample: 0-2 (start time tied with B). -/
def tgA : Course := ⟨"A", "A", 0, 2, 1, []⟩

/-- Course B of the C10 counterexample: 0-3 (start time tied with A). -/
def tgB : Course := ⟨"B", "B", 0, 3, 1, []⟩

/-- Course C of the C10 counterexample: 5-6. -/
def tgC : Course := ⟨"C", "C", 5, 6, 1, []⟩

/-- A course whose prerequisite "Z" is not completed (C9 witness). -/
def lockedCourse : Course := ⟨"L", "L", 8, 10, 4, ["Z"]⟩

/-- The exclude-chain node at depth `k` of a min-gaps search trace:
nothing selected, zero credits and gap. -/
def eNode (k : ℕ) : BBNode := ⟨k, [], 0, 0, 0⟩

/-- The include child created at depth `k` for course `c` in a min-gaps
search trace: the singleton selection `[c]`, which has zero gap. -/
def iNodeOf (k : ℕ) (c : Course) : BBNode := ⟨k + 1, [c], c.credits, 0, 0⟩

/-- The stack of pending include children after the min-gaps search has
walked the pure-exclude chain through the course prefix `pre` (levels
counted from `k`): most recently pushed child on top. -/
def iStackOf (k : ℕ) : List Course → List BBNode
  | [] => []
  | c :: rest => iStackOf (k + 1) rest ++ [iNodeOf k c]

lemma conflicts_with_symm (a b : Course) : a.conflicts_with b = b.conflicts_with a := by
  simp [Course.conflicts_with, Bool.or_comm]

lemma pcf_append_singleton {sel : List Course} {c : Course}
    (h : pairwiseConflictFree sel)
    (hc : (sel.any fun s => c.conflicts_with s) = false) :
    pairwiseConflictFree (sel ++ [c]) := by
  rw [pairwiseConflictFree, List.pairwise_append]
  refine ⟨h, List.pairwise_singleton _ _, ?_⟩
  intro a ha b hb
  rw [List.mem_singleton] at hb
  subst hb
  rw [List.any_eq_false] at hc
  have := hc a ha
  rw [conflicts_with_symm]
  simpa using this

lemma selectNonConflicting_pcf :
    ∀ rest sel, pairwiseConflictFree sel → pairwiseConflictFree (selectNonConflicting sel rest)
  | [], _, h => h
  | c :: rest, sel, h => by
    rw [selectNonConflicting]
    by_cases hany : (sel.any fun s => c.conflicts_with s) = true
    · rw [if_pos hany]
      exact selectNonConflicting_pcf rest sel h
    · rw [if_neg hany]
      exact selectNonConflicting_pcf rest (sel ++ [c])
        (pcf_append_singleton h (by simpa using hany))

lemma selectNonConflicting_mem :
    ∀ rest sel x, x ∈ selectNonConflicting sel rest → x ∈ sel ∨ x ∈ rest
  | [], _, x, h => Or.inl h
  | c :: rest, sel, x, h => by
    rw [selectNonConflicting] at h
    by_cases hany : (sel.any fun s => c.conflicts_with s) = true
    · rw [if_pos hany] at h
      rcases selectNonConflicting_mem rest sel x h with h' | h'
      · exact Or.inl h'
      · exact Or.inr (List.mem_cons_of_mem _ h')
    · rw [if_neg hany] at h
      rcases selectNonConflicting_mem rest (sel ++ [c]) x h with h' | h'
      · rcases List.mem_append.1 h' with h'' | h''
        · exact Or.inl h''
        · exact Or.inr (by simpa using Or.inl (List.mem_singleton.1 h''))
      · exact Or.inr (List.mem_cons_of_mem _ h')

lemma mem_of_children_core {eligible : List Course} {node : BBNode} {nd : BBNode}
    {inc exc : List BBNode} {cur : Course} {tl : List Course}
    (hdrop : eligible.drop node.level = cur :: tl)
    (h : nd ∈ exc ++ inc)
    (hexc : ∀ x ∈ exc, x.selected = node.selected)
    (hinc : ∀ x ∈ inc,
      (node.selected.any fun s => cur.conflicts_with s) = false ∧
        x.selected = node.selected ++ [cur]) :
    nd.selected = node.selected ∨
      ∃ c, c ∈ eligible ∧ (node.selected.any fun s => c.conflicts_with s) = false ∧
        nd.selected = node.selected ++ [c] := by
  have hcur : cur ∈ eligible := by
    have : cur ∈ eligible.drop node.level := by
      rw [hdrop]
      exact List.mem_cons_self _ _
    exact List.mem_of_mem_drop this
  rcases List.mem_append.1 h with h' | h'
  · exact Or.inl (hexc _ h')
  · exact Or.inr ⟨cur, hcur, (hinc _ h').1, (hinc _ h').2⟩

lemma mem_bbMaxChildren {eligible : List Course} {bc : ℤ} {node nd : BBNode}
    (h : nd ∈ bbMaxChildren eligible bc node) :
    nd.selected = node.selected ∨
      ∃ c, c ∈ eligible ∧ (node.selected.any fun s => c.conflicts_with s) = false ∧
        nd.selected = node.selected ++ [c] := by
  rw [bbMaxChildren] at h
  rcases hd : eligible.drop node.level with _ | ⟨cur, tl⟩
  · rw [hd] at h
    simp at h
  · rw [hd] at h
    refine mem_of_children_core hd h ?_ ?_
    · intro x hx
      simp only [] at hx
      split at hx
      · rw [List.mem_singleton] at hx
        subst hx
        rfl
      · simp at hx
    · intro x hx
      simp only [] at hx
      split at hx
      · simp at hx
      · rename_i hna
        split at hx
        · rw [List.mem_singleton] at hx
          subst hx
          exact ⟨by simpa using hna, rfl⟩
        · simp at hx

lemma mem_bbMinChildren {eligible : List Course} {node nd : BBNode}
    (h : nd ∈ bbMinChildren eligible node) :
    nd.selected = node.selected ∨
      ∃ c, c ∈ eligible ∧ (node.selected.any fun s => c.conflicts_with s) = false ∧
        nd.selected = node.selected ++ [c] := by
  rw [bbMinChildren] at h
  rcases hd : eligible.drop node.level with _ | ⟨cur, tl⟩
  · rw [hd] at h
    simp at h
  · rw [hd] at h
    refine mem_of_children_core hd h ?_ ?_
    · intro x hx
      rw [List.mem_singleton] at hx
      subst hx
      rfl
    · intro x hx
      simp only [] at hx
      split at hx
      · simp at hx
      · rename_i hna
        rw [List.mem_singleton] at hx
        subst hx
        exact ⟨by simpa using hna, rfl⟩

lemma mem_bbCombChildren {p : ℚ} {eligible : List Course} {bo : Option ℚ} {node nd : BBNode}
    (h : nd ∈ bbCombChildren p eligible bo node) :
    nd.selected = node.selected ∨
      ∃ c, c ∈ eligible ∧ (node.selected.any fun s => c.conflicts_with s) = false ∧
        nd.selected = node.selected ++ [c] := by
  rw [bbCombChildren] at h
  rcases hd : eligible.drop node.level with _ | ⟨cur, tl⟩
  · rw [hd] at h
    simp at h
  · rw [hd] at h
    refine mem_of_children_core hd h ?_ ?_
    · intro x hx
      simp only [] at hx
      split at hx
      · rw [List.mem_singleton] at hx
        subst hx
        rfl
      · simp at hx
    · intro x hx
      simp only [] at hx
      split at hx
      · simp at hx
      · rename_i hna
        split at hx
        · rw [List.mem_singleton] at hx
          subst hx
          exact ⟨by simpa using hna, rfl⟩
        · simp at hx

/-- Any property of partial selections preserved by guarded inclusion is
an invariant of the max-credits worklist and holds of the returned
selection. -/
lemma bbMaxLoop_inv (eligible : List Course) (P : List Course → Prop)
    (hP : ∀ sel c, P sel → c ∈ eligible → (sel.any fun s => c.conflicts_with s) = false →
      P (sel ++ [c])) :
    ∀ fuel stack sol cr g, (∀ nd ∈ stack, P nd.selected) → P sol →
      P (bbMaxLoop eligible fuel stack sol cr g).1
  | 0, _, _, _, _, _, hsol => hsol
  | _ + 1, [], _, _, _, _, hsol => hsol
  | f + 1, node :: rest, sol, cr, g, hstack, hsol => by
    rw [bbMaxLoop]
    have hrest : ∀ nd ∈ rest, P nd.selected := fun nd h => hstack nd (List.mem_cons_of_mem _ h)
    have hnode : P node.selected := hstack node (List.mem_cons_self _ _)
    split
    · exact bbMaxLoop_inv eligible P hP f rest sol cr g hrest hsol
    · split
      · split
        · exact bbMaxLoop_inv eligible P hP f rest node.selected node.credits _ hrest hnode
        · exact bbMaxLoop_inv eligible P hP f rest sol cr g hrest hsol
      · refine bbMaxLoop_inv eligible P hP f _ sol cr g ?_ hsol
        intro nd hnd
        rcases List.mem_append.1 hnd with h' | h'
        · rcases mem_bbMaxChildren h' with h'' | ⟨c, hc, hcc, h''⟩
          · rw [h'']
            exact hnode
          · rw [h'']
            exact hP _ _ hnode hc hcc
        · exact hrest nd h'

/-- The same invariance for the min-gaps worklist (also covering the
`bad`-flag-instrumented output's solution component). -/
lemma bbMinLoop_inv (eligible : List Course) (P : List Course → Prop)
    (hP : ∀ sel c, P sel → c ∈ eligible → (sel.any fun s => c.conflicts_with s) = false →
      P (sel ++ [c])) :
    ∀ fuel stack sol cr bg bad, (∀ nd ∈ stack, P nd.selected) → P sol →
      P (bbMinLoop eligible fuel stack sol cr bg bad).1.1
  | 0, _, _, _, _, _, _, hsol => hsol
  | _ + 1, [], _, _, _, _, _, hsol => hsol
  | f + 1, node :: rest, sol, cr, bg, bad, hstack, hsol => by
    rw [bbMinLoop]
    have hrest : ∀ nd ∈ rest, P nd.selected := fun nd h => hstack nd (List.mem_cons_of_mem _ h)
    have hnode : P node.selected := hstack node (List.mem_cons_self _ _)
    split
    · split
      · split
        · exact bbMinLoop_inv eligible P hP f rest node.selected node.credits _ bad hrest hnode
        · exact bbMinLoop_inv eligible P hP f rest sol cr bg bad hrest hsol
      · refine bbMinLoop_inv eligible P hP f _ sol cr bg _ ?_ hsol
        intro nd hnd
        rcases List.mem_append.1 hnd with h' | h'
        · rcases mem_bbMinChildren h' with h'' | ⟨c, hc, hcc, h''⟩
          · rw [h'']
            exact hnode
          · rw [h'']
            exact hP _ _ hnode hc hcc
        · exact hrest nd h'
    · exact bbMinLoop_inv eligible P hP f rest sol cr bg bad hrest hsol

/-- The same invariance for the combined-objective worklist. -/
lemma bbCombLoop_inv (p : ℚ) (eligible : List Course) (P : List Course → Prop)
    (hP : ∀ sel c, P sel → c ∈ eligible → (sel.any fun s => c.conflicts_with s) = false →
      P (sel ++ [c])) :
    ∀ fuel stack sol bo cr g, (∀ nd ∈ stack, P nd.selected) → P sol →
      P (bbCombLoop p eligible fuel stack sol bo cr g).1
  | 0, _, _, _, _, _, _, hsol => hsol
  | _ + 1, [], _, _, _, _, _, hsol => hsol
  | f + 1, node :: rest, sol, bo, cr, g, hstack, hsol => by
    rw [bbCombLoop]
    have hrest : ∀ nd ∈ rest, P nd.selected := fun nd h => hstack nd (List.mem_cons_of_mem _ h)
    have hnode : P node.selected := hstack node (List.mem_cons_self _ _)
    split
    · split
      · split
        · exact bbCombLoop_inv p eligible P hP f rest node.selected _ node.credits node.gap
            hrest hnode
        · exact bbCombLoop_inv p eligible P hP f rest sol bo cr g hrest hsol
      · refine bbCombLoop_inv p eligible P hP f _ sol bo cr g ?_ hsol
        intro nd hnd
        rcases List.mem_append.1 hnd with h' | h'
        · rcases mem_bbCombChildren h' with h'' | ⟨c, hc, hcc, h''⟩
          · rw [h'']
            exact hnode
          · rw [h'']
            exact hP _ _ hnode hc hcc
        · exact hrest nd h'
    · exact bbCombLoop_inv p eligible P hP f rest sol bo cr g hrest hsol

lemma pcf_step (eligible : List Course) :
    ∀ sel c, pairwiseConflictFree sel → c ∈ eligible →
      (sel.any fun s => c.conflicts_with s) = false → pairwiseConflictFree (sel ++ [c]) :=
  fun _ _ h _ hcc => pcf_append_singleton h hcc

lemma prereq_of_mem_eligible {catalog : List Course} {completed : List String} {c : Course}
    (h : c ∈ eligibleCourses catalog completed) : ∀ q ∈ c.prerequisites, q ∈ completed := by
  rw [eligibleCourses, List.mem_filter] at h
  intro q hq
  have h2 := h.2
  rw [prereqsMet, List.all_eq_true] at h2
  simpa using h2 q hq

lemma mem_selFromAssign :
    ∀ {l : List (Course × Bool)} {c : Course}, c ∈ selFromAssign l → (c, true) ∈ l
  | [], _, h => by simp [selFromAssign] at h
  | (c', false) :: rest, c, h => by
    have h' : c ∈ selFromAssign rest := h
    exact List.mem_cons_of_mem _ (mem_selFromAssign h')
  | (c', true) :: rest, c, h => by
    have h' : c ∈ c' :: selFromAssign rest := h
    rcases List.mem_cons.1 h' with h'' | h''
    · subst h''
      exact List.mem_cons_self _ _
    · exact List.mem_cons_of_mem _ (mem_selFromAssign h'')

lemma selFromAssign_pcf :
    ∀ {l : List (Course × Bool)},
      (l.Pairwise fun a b => a.1.conflicts_with b.1 = true → ¬(a.2 = true ∧ b.2 = true)) →
        pairwiseConflictFree (selFromAssign l)
  | [], _ => List.Pairwise.nil
  | (c', false) :: rest, h => by
    have h2 : pairwiseConflictFree (selFromAssign rest) :=
      selFromAssign_pcf (List.pairwise_cons.1 h).2
    exact h2
  | (c', true) :: rest, h => by
    rw [List.pairwise_cons] at h
    show pairwiseConflictFree (c' :: selFromAssign rest)
    rw [pairwiseConflictFree, List.pairwise_cons]
    refine ⟨?_, selFromAssign_pcf h.2⟩
    intro x hx
    have hmem : (x, true) ∈ rest := mem_selFromAssign hx
    have hr := h.1 _ hmem
    rcases hcx : c'.conflicts_with x with _ | _
    · rfl
    · exact absurd ⟨rfl, rfl⟩ (hr hcx)

lemma selFromAssign_mem_left {l : List (Course × Bool)} {c : Course}
    (h : c ∈ selFromAssign l) : c ∈ l.map Prod.fst := by
  have := mem_selFromAssign h
  exact List.mem_map.2 ⟨(c, true), this, rfl⟩

lemma greedy_sel_pcf (r : Course → Course → Prop) [DecidableRel r]
    (catalog : List Course) (completed : List String) :
    pairwiseConflictFree
      (selectNonConflicting []
        (List.insertionSort r (eligibleCourses catalog completed))) :=
  selectNonConflicting_pcf _ [] List.Pairwise.nil

lemma greedy_sel_mem (r : Course → Course → Prop) [DecidableRel r]
    (catalog : List Course) (completed : List String) :
    ∀ c ∈ selectNonConflicting [] (List.insertionSort r (eligibleCourses catalog completed)),
      c ∈ eligibleCourses catalog completed := by
  intro c hc
  rcases selectNonConflicting_mem _ [] c hc with h | h
  · simp at h
  · exact (List.mem_insertionSort r).1 h

lemma mem_step (eligible : List Course) :
    ∀ sel c, (∀ x ∈ sel, x ∈ eligible) → c ∈ eligible →
      (sel.any fun s => c.conflicts_with s) = false → ∀ x ∈ sel ++ [c], x ∈ eligible := by
  intro sel c hsel hc _ x hx
  rcases List.mem_append.1 hx with h | h
  · exact hsel x h
  · rw [List.mem_singleton] at h
    subst h
    exact hc

lemma singleton_root_selected (b : ℚ) :
    ∀ nd ∈ [(⟨0, [], 0, 0, b⟩ : BBNode)], ∀ x ∈ nd.selected, x ∈ ([] : List Course) := by
  intro nd hnd
  rw [List.mem_singleton] at hnd
  subst hnd
  intro x hx
  simp at hx

lemma bnb_max_sel_pcf (catalog : List Course) (completed : List String) :
    pairwiseConflictFree (branch_and_bound_schedule_max_credits catalog completed).1 := by
  rw [branch_and_bound_schedule_max_credits]
  split
  · exact List.Pairwise.nil
  · refine bbMaxLoop_inv _ pairwiseConflictFree (pcf_step _) _ _ [] 0 0 ?_ List.Pairwise.nil
    intro nd hnd
    rw [List.mem_singleton] at hnd
    subst hnd
    exact List.Pairwise.nil

lemma bnb_max_sel_mem (catalog : List Course) (completed : List String) :
    ∀ c ∈ (branch_and_bound_schedule_max_credits catalog completed).1,
      c ∈ eligibleCourses catalog completed := by
  rw [branch_and_bound_schedule_max_credits]
  split
  · intro c hc
    simp at hc
  · intro c hc
    refine (List.mem_insertionSort credDescLe).1
      (bbMaxLoop_inv _ (fun sel => ∀ x ∈ sel, x ∈ _) ?_ _ _ [] 0 0 ?_ ?_ c hc)
    · exact mem_step _
    · intro nd hnd
      rw [List.mem_singleton] at hnd
      subst hnd
      intro x hx
      simp at hx
    · intro x hx
      simp at hx

lemma bnb_min_sel_pcf (catalog : List Course) (completed : List String) :
    pairwiseConflictFree (branch_and_bound_schedule_min_gaps catalog completed).1 := by
  rw [branch_and_bound_schedule_min_gaps]
  split
  · exact List.Pairwise.nil
  · simp only []
    split
    · exact List.Pairwise.nil
    · refine bbMinLoop_inv _ pairwiseConflictFree (pcf_step _) _ _ [] 0 none false ?_
        List.Pairwise.nil
      intro nd hnd
      rw [List.mem_singleton] at hnd
      subst hnd
      exact List.Pairwise.nil

lemma bnb_min_sel_mem (catalog : List Course) (completed : List String) :
    ∀ c ∈ (branch_and_bound_schedule_min_gaps catalog completed).1,
      c ∈ eligibleCourses catalog completed := by
  rw [branch_and_bound_schedule_min_gaps]
  split
  · intro c hc
    simp at hc
  · simp only []
    split
    · intro c hc
      simp at hc
    · intro c hc
      refine (List.mem_insertionSort endLe).1
        (bbMinLoop_inv _ (fun sel => ∀ x ∈ sel, x ∈ _) (mem_step _) _ _ [] 0 none false
          ?_ ?_ c hc)
      · intro nd hnd
        rw [List.mem_singleton] at hnd
        subst hnd
        intro x hx
        simp at hx
      · intro x hx
        simp at hx

lemma bnb_comb_sel_pcf (catalog : List Course) (completed : List String) (p : ℚ) :
    pairwiseConflictFree (branch_and_bound_schedule catalog completed p).1 := by
  rw [branch_and_bound_schedule]
  split
  · exact List.Pairwise.nil
  · refine bbCombLoop_inv p _ pairwiseConflictFree (pcf_step _) _ _ [] none 0 0 ?_
      List.Pairwise.nil
    intro nd hnd
    rw [List.mem_singleton] at hnd
    subst hnd
    exact List.Pairwise.nil

lemma bnb_comb_sel_mem (catalog : List Course) (completed : List String) (p : ℚ) :
    ∀ c ∈ (branch_and_bound_schedule catalog completed p).1,
      c ∈ eligibleCourses catalog completed := by
  rw [branch_and_bound_schedule]
  split
  · intro c hc
    simp at hc
  · intro c hc
    refine (List.mem_insertionSort ratioLe).1
      (bbCombLoop_inv p _ (fun sel => ∀ x ∈ sel, x ∈ _) (mem_step _) _ _ [] none 0 0
        ?_ ?_ c hc)
    · intro nd hnd
      rw [List.mem_singleton] at hnd
      subst hnd
      intro x hx
      simp at hx
    · intro x hx
      simp at hx

lemma ilp_res_pcf {catalog : List Course} {completed : List String} {p : ℚ}
    {res : List Course × ℤ × ℚ} (h : ilp_schedule_returns catalog completed p res) :
    pairwiseConflictFree res.1 := by
  rw [ilp_schedule_returns] at h
  split at h
  · rw [h]
    exact List.Pairwise.nil
  · simp only [] at h
    split at h
    · rw [h]
      exact List.Pairwise.nil
    · obtain ⟨xs, hsolves, hres⟩ := h
      rw [hres]
      exact selFromAssign_pcf hsolves.2.1

lemma ilp_res_mem {catalog : List Course} {completed : List String} {p : ℚ}
    {res : List Course × ℤ × ℚ} (h : ilp_schedule_returns catalog completed p res) :
    ∀ c ∈ res.1, c ∈ eligibleCourses catalog completed := by
  rw [ilp_schedule_returns] at h
  split at h
  · rw [h]
    intro c hc
    simp at hc
  · simp only [] at h
    split at h
    · rw [h]
      intro c hc
      simp at hc
    · obtain ⟨xs, hsolves, hres⟩ := h
      rw [hres]
      intro c hc
      exact (List.of_mem_zip (mem_selFromAssign hc)).1

/-- Claim C1: for every input catalog and completed-id set, the
selection returned by each solver (`greedy_schedule_max_credits`,
`greedy_schedule_min_gaps`, `greedy_schedule`,
`branch_and_bound_schedule_max_credits`,
`branch_and_bound_schedule_min_gaps`, `branch_and_bound_schedule`,
`ilp_schedule`) is pairwise conflict-free: no two distinct courses in
the returned list satisfy `conflicts_with`. -/
theorem all_solvers_conflict_free (catalog : List Course) (completed : List String) (p : ℚ) :
    pairwiseConflictFree (greedy_schedule_max_credits catalog completed).1 ∧
    pairwiseConflictFree (greedy_schedule_min_gaps catalog completed).1 ∧
    pairwiseConflictFree (greedy_schedule catalog completed).1 ∧
    pairwiseConflictFree (branch_and_bound_schedule_max_credits catalog completed).1 ∧
    pairwiseConflictFree (branch_and_bound_schedule_min_gaps catalog completed).1 ∧
    pairwiseConflictFree (branch_and_bound_schedule catalog completed p).1 ∧
    ∀ res, ilp_schedule_returns catalog completed p res → pairwiseConflictFree res.1 :=
  ⟨greedy_sel_pcf maxKeyLe catalog completed,
   greedy_sel_pcf endLe catalog completed,
   greedy_sel_pcf ratioLe catalog completed,
   bnb_max_sel_pcf catalog completed,
   bnb_min_sel_pcf catalog completed,
   bnb_comb_sel_pcf catalog completed p,
   fun _ h => ilp_res_pcf h⟩

/-- Witness for C1 at a concrete input (and a concrete `ilp_schedule`
return value discharging the relational hypothesis). -/
theorem all_solvers_conflict_free_witness :
    pairwiseConflictFree
      (greedy_schedule_max_credits [⟨"A", "A", 8, 10, 4, []⟩] []).1 ∧
    pairwiseConflictFree ((([] : List Course), (0 : ℤ), (0 : ℚ))).1 :=
  ⟨(all_solvers_conflict_free [⟨"A", "A", 8, 10, 4, []⟩] [] 0).1,
   (all_solvers_conflict_free [] [] 0).2.2.2.2.2.2 ([], 0, 0)
     (by simp [ilp_schedule_returns])⟩

/-- Claim C2: for every input catalog and completed-id set, every
course in the selection returned by any solver has all of its
prerequisite ids contained in the completed-id set. -/
theorem all_solvers_respect_prerequisites (catalog : List Course) (completed : List String)
    (p : ℚ) :
    (∀ c ∈ (greedy_schedule_max_credits catalog completed).1,
      ∀ q ∈ c.prerequisites, q ∈ completed) ∧
    (∀ c ∈ (greedy_schedule_min_gaps catalog completed).1,
      ∀ q ∈ c.prerequisites, q ∈ completed) ∧
    (∀ c ∈ (greedy_schedule catalog completed).1, ∀ q ∈ c.prerequisites, q ∈ completed) ∧
    (∀ c ∈ (branch_and_bound_schedule_max_credits catalog completed).1,
      ∀ q ∈ c.prerequisites, q ∈ completed) ∧
    (∀ c ∈ (branch_and_bound_schedule_min_gaps catalog completed).1,
      ∀ q ∈ c.prerequisites, q ∈ completed) ∧
    (∀ c ∈ (branch_and_bound_schedule catalog completed p).1,
      ∀ q ∈ c.prerequisites, q ∈ completed) ∧
    ∀ res, ilp_schedule_returns catalog completed p res →
      ∀ c ∈ res.1, ∀ q ∈ c.prerequisites, q ∈ completed :=
  ⟨fun c hc => prereq_of_mem_eligible (greedy_sel_mem maxKeyLe catalog completed c hc),
   fun c hc => prereq_of_mem_eligible (greedy_sel_mem endLe catalog completed c hc),
   fun c hc => prereq_of_mem_eligible (greedy_sel_mem ratioLe catalog completed c hc),
   fun c hc => prereq_of_mem_eligible (bnb_max_sel_mem catalog completed c hc),
   fun c hc => prereq_of_mem_eligible (bnb_min_sel_mem catalog completed c hc),
   fun c hc => prereq_of_mem_eligible (bnb_comb_sel_mem catalog completed p c hc),
   fun _ h c hc => prereq_of_mem_eligible (ilp_res_mem h c hc)⟩

/-- Witness for C2 at a concrete input (and a concrete `ilp_schedule`
return value discharging the relational hypothesis). -/
theorem all_solvers_respect_prerequisites_witness :
    (∀ c ∈ (greedy_schedule_max_credits [⟨"A", "A", 8, 10, 4, ["Z"]⟩] ["Z"]).1,
      ∀ q ∈ c.prerequisites, q ∈ ["Z"]) ∧
    ∀ c ∈ (([] : List Course), (0 : ℤ), (0 : ℚ)).1, ∀ q ∈ c.prerequisites, q ∈ ([] : List String) :=
  ⟨(all_solvers_respect_prerequisites [⟨"A", "A", 8, 10, 4, ["Z"]⟩] ["Z"] 0).1,
   (all_solvers_respect_prerequisites [] [] 0).2.2.2.2.2.2 ([], 0, 0)
     (by simp [ilp_schedule_returns])⟩

/-- Claim C8: course construction fails iff `start_time ≥ end_time` or
`credits ≤ 0`; when it succeeds the resulting course satisfies
`start_time < end_time` and `credits > 0`. -/
theorem course_construction_validates (id name : String) (s e : ℚ) (cr : ℤ)
    (pr : List String) :
    (mkCourse id name s e cr pr = none ↔ e ≤ s ∨ cr ≤ 0) ∧
    ∀ c, mkCourse id name s e cr pr = some c → c.start_time < c.end_time ∧ 0 < c.credits := by
  constructor
  · rw [mkCourse]
    split
    · rename_i h
      simp [h]
    · rename_i h
      split
      · rename_i h2
        simp [h2]
      · rename_i h2
        simp [h, h2]
  · intro c hc
    rw [mkCourse] at hc
    split at hc
    · exact absurd hc (by simp)
    · split at hc
      · exact absurd hc (by simp)
      · rename_i h h2
        injection hc with hc'
        subst hc'
        exact ⟨lt_of_not_le h, lt_of_not_le h2⟩

/-- Witness for C8: a concrete successful construction, with the
invariant read off through the theorem. -/
theorem course_construction_validates_witness :
    mkCourse "X" "X" 0 1 1 [] = some ⟨"X", "X", 0, 1, 1, []⟩ ∧
    (0 : ℚ) < 1 ∧ (0 : ℤ) < 1 := by
  have h : mkCourse "X" "X" 0 1 1 [] = some ⟨"X", "X", 0, 1, 1, []⟩ := by
    rw [mkCourse]
    rw [if_neg (by norm_num), if_neg (by norm_num)]
  have h2 := (course_construction_validates "X" "X" 0 1 1 []).2 _ h
  exact ⟨h, h2.1, h2.2⟩

/-- Claim C9: for every solver, an empty catalog or an empty eligible
set after prerequisite filtering yields the canonical empty result
`([], 0, 0.0)`, returned as a normal value. -/
theorem empty_eligible_canonical_empty (catalog : List Course) (completed : List String)
    (p : ℚ) (h : eligibleCourses catalog completed = []) :
    greedy_schedule_max_credits catalog completed = ([], 0, 0) ∧
    greedy_schedule_min_gaps catalog completed = ([], 0, 0) ∧
    greedy_schedule catalog completed = ([], 0, 0) ∧
    branch_and_bound_schedule_max_credits catalog completed = ([], 0, 0) ∧
    branch_and_bound_schedule_min_gaps catalog completed = ([], 0, 0) ∧
    branch_and_bound_schedule catalog completed p = ([], 0, 0) ∧
    ∀ res, ilp_schedule_returns catalog completed p res → res = ([], 0, 0) := by
  refine ⟨?_, ?_, ?_, ?_, ?_, ?_, ?_⟩
  · simp [greedy_schedule_max_credits, h, List.insertionSort, selectNonConflicting,
      calculate_total_credits, calculate_total_gap]
  · simp [greedy_schedule_min_gaps, h, List.insertionSort, selectNonConflicting,
      calculate_total_credits, calculate_total_gap]
  · simp [greedy_schedule, h, List.insertionSort, selectNonConflicting,
      calculate_total_credits, calculate_total_gap]
  · simp [branch_and_bound_schedule_max_credits, h]
  · simp [branch_and_bound_schedule_min_gaps, h]
  · simp [branch_and_bound_schedule, h]
  · intro res hres
    rw [ilp_schedule_returns] at hres
    split at hres
    · exact hres
    · simp only [] at hres
      rw [h] at hres
      simp at hres
      exact hres

/-- Witness for C9: a catalog whose single course has an unmet
prerequisite, so the eligible set is empty. -/
theorem empty_eligible_canonical_empty_witness :
    eligibleCourses [lockedCourse] [] = [] ∧
    branch_and_bound_schedule_min_gaps [lockedCourse] [] = ([], 0, 0) := by
  have h : eligibleCourses [lockedCourse] [] = [] := by
    simp [eligibleCourses, prereqsMet, lockedCourse]
  exact ⟨h, (empty_eligible_canonical_empty [lockedCourse] [] 0 h).2.2.2.2.1⟩

lemma conflicts_with_false_iff (a b : Course) :
    a.conflicts_with b = false ↔ a.end_time ≤ b.start_time ∨ b.end_time ≤ a.start_time := by
  simp only [Course.conflicts_with, Bool.not_eq_false', Bool.or_eq_true, decide_eq_true_eq]

lemma bnb_comb_eval_cmb :
    branch_and_bound_schedule [cmbA, cmbB] [] (3 / 5) = ([cmbB], 1, 0) := by
  norm_num [branch_and_bound_schedule, bbCombLoop, bbCombChildren, beatsHigh,
    calculate_upper_bound, eligibleCourses, prereqsMet, List.insertionSort, List.orderedInsert,
    ratioLe, cmbA, cmbB, calculate_total_gap, sumConsecGaps, startLe, Course.gap_to,
    Course.conflicts_with, remainingCredits, Option.some_ne_none,
    show "combined" ≠ "max_credits" from by decide,
    show "combined" ≠ "min_gaps" from by decide, List.cons_ne_nil]

/-- Claim C3 (code bug): on the catalog A(0-1, 1cr), B(2-3, 1cr) with
no prerequisites and `gap_penalty = 3/5`, the combined-objective
`branch_and_bound_schedule` returns `[B]` with objective value `1`,
although `[A, B]` is a pairwise conflict-free subset of the eligible
courses with the strictly better objective value `2 - 3/5`, so the
search is not exact: its push-time guard subtracts the gap penalty a
second time from a bound that already includes it, over-pruning the
optimal branch. -/
theorem bnb_combined_not_exact_at_failing_input :
    branch_and_bound_schedule [cmbA, cmbB] [] (3 / 5) = ([cmbB], 1, 0) ∧
    eligibleCourses [cmbA, cmbB] [] = [cmbA, cmbB] ∧
    pairwiseConflictFree [cmbA, cmbB] ∧
    (calculate_total_credits [cmbB] : ℚ) - (3 / 5) * calculate_total_gap [cmbB] <
      (calculate_total_credits [cmbA, cmbB] : ℚ) -
        (3 / 5) * calculate_total_gap [cmbA, cmbB] := by
  refine ⟨bnb_comb_eval_cmb, ?_, ?_, ?_⟩
  · simp [eligibleCourses, prereqsMet, cmbA, cmbB]
  · rw [pairwiseConflictFree]
    refine List.Pairwise.cons ?_ (List.pairwise_singleton _ _)
    intro b hb
    rw [List.mem_singleton] at hb
    subst hb
    rw [conflicts_with_false_iff]
    norm_num [cmbA, cmbB]
  · norm_num [calculate_total_credits, calculate_total_gap, sumConsecGaps, cmbA, cmbB,
      List.insertionSort, List.orderedInsert, startLe, Course.gap_to]

lemma bnb_min_eval_mg :
    branch_and_bound_schedule_min_gaps [mgA, mgB, mgC] [] = ([mgC], 3, 0) := by
  norm_num [branch_and_bound_schedule_min_gaps, bbMinLoop, bbMinChildren, beatsLow,
    eligibleCourses, prereqsMet, List.insertionSort, List.orderedInsert, endLe, mgA, mgB, mgC,
    calculate_total_gap, sumConsecGaps, startLe, Course.gap_to, Course.conflicts_with,
    remainingCredits, Option.some_ne_none, List.cons_ne_nil]

/-- Claim C4 (counterexample): on the catalog A(8-10), B(10-12),
C(15-17), all with equal credits, no prerequisites and an empty
completed set, `branch_and_bound_schedule_min_gaps` does NOT return the
selection `{A, B}`: it returns the single course `[C]`. -/
theorem bnb_min_gaps_example_not_AB :
    (branch_and_bound_schedule_min_gaps [mgA, mgB, mgC] []).1 ≠ [mgA, mgB] ∧
    (branch_and_bound_schedule_min_gaps [mgA, mgB, mgC] []).1 ≠ [mgB, mgA] := by
  rw [bnb_min_eval_mg]
  constructor
  · simp
  · simp

/-- Claim C4 (amended): on the catalog A(8-10), B(10-12), C(15-17),
all with equal positive credits and an empty completed-id set,
`branch_and_bound_schedule_min_gaps` returns the single-course
selection `[C]` with total gap `0.0`: the depth-first order finds a
zero-gap single-course incumbent first and the pop-time prune discards
every node whose gap merely equals the incumbent gap, so `{A, B}` is
never reached and the credit tie-break never applies. -/
theorem bnb_min_gaps_example_returns_single_C :
    branch_and_bound_schedule_min_gaps [mgA, mgB, mgC] [] = ([mgC], 3, 0) :=
  bnb_min_eval_mg

lemma greedy_max_eval_mc :
    greedy_schedule_max_credits [mcA, mcB, mcC] [] = ([mcB, mcC], 8, 4) := by
  norm_num [greedy_schedule_max_credits, eligibleCourses, prereqsMet, selectNonConflicting,
    List.insertionSort, List.orderedInsert, maxKeyLe, Course.conflicts_with,
    calculate_total_credits, calculate_total_gap, sumConsecGaps, startLe, Course.gap_to,
    mcA, mcB, mcC]

lemma bnb_max_eval_mc :
    branch_and_bound_schedule_max_credits [mcA, mcB, mcC] [] = ([mcB, mcC], 8, 4) := by
  norm_num [branch_and_bound_schedule_max_credits, bbMaxLoop, bbMaxChildren,
    calculate_upper_bound, eligibleCourses, prereqsMet, List.insertionSort, List.orderedInsert,
    credDescLe, mcA, mcB, mcC, calculate_total_gap, sumConsecGaps, startLe, Course.gap_to,
    Course.conflicts_with, remainingCredits, List.cons_ne_nil]

/-- Claim C6 (counterexample): on the catalog A(8-10, 2cr),
B(8-10, 5cr), C(14-16, 3cr), the max-credits solvers do return the
selection `{B, C}` with 8 credits, but its total gap is `4.0`
(C starts at 14, B ends at 10), not `6.0` as claimed. -/
theorem max_credits_example_gap_not_six :
    (greedy_schedule_max_credits [mcA, mcB, mcC] []).2.2 ≠ 6 ∧
    (branch_and_bound_schedule_max_credits [mcA, mcB, mcC] []).2.2 ≠ 6 := by
  rw [greedy_max_eval_mc, bnb_max_eval_mc]
  norm_num

/-- Claim C6 (amended): on the catalog A(8-10, 2cr), B(8-10, 5cr,
conflicting with A), C(14-16, 3cr), with no prerequisites and an empty
completed-id set, `greedy_schedule_max_credits` and
`branch_and_bound_schedule_max_credits` both return the selection
`{B, C}` with total credits 8 and total gap `4.0`. -/
theorem max_credits_example_returns_BC_gap_four :
    greedy_schedule_max_credits [mcA, mcB, mcC] [] = ([mcB, mcC], 8, 4) ∧
    branch_and_bound_schedule_max_credits [mcA, mcB, mcC] [] = ([mcB, mcC], 8, 4) :=
  ⟨greedy_max_eval_mc, bnb_max_eval_mc⟩

/-- Claim C10 (counterexample): `calculate_total_gap` is not invariant
under permutation when two courses share a start time: with
A(0-2), B(0-3), C(5-6), the list `[B, A, C]` (a permutation of
`[A, B, C]`) has total gap 3 while `[A, B, C]` has total gap 2,
because the stable start-time sort preserves the input order of the
tied courses A and B. -/
theorem total_gap_not_permutation_invariant :
    [tgB, tgA, tgC].Perm [tgA, tgB, tgC] ∧
    calculate_total_gap [tgB, tgA, tgC] ≠ calculate_total_gap [tgA, tgB, tgC] := by
  constructor
  · exact List.Perm.swap _ _ _
  · norm_num [calculate_total_gap, sumConsecGaps, List.insertionSort, List.orderedInsert,
      startLe, Course.gap_to, tgA, tgB, tgC]

/-- Claim C10 (amended): `calculate_total_gap` is invariant under
permutation of its input whenever the courses have pairwise distinct
start times (the internal start-time sort is then unique). -/
theorem total_gap_perm_invariant_of_distinct_starts (l1 l2 : List Course)
    (hperm : l1.Perm l2)
    (hd : l1.Pairwise fun a b => a.start_time ≠ b.start_time) :
    calculate_total_gap l1 = calculate_total_gap l2 := by
  have hsymm : ∀ {x y : Course}, x.start_time ≠ y.start_time → y.start_time ≠ x.start_time :=
    fun h => Ne.symm h
  have hp : (List.insertionSort startLe l1).Perm (List.insertionSort startLe l2) :=
    ((List.perm_insertionSort startLe l1).trans hperm).trans
      (List.perm_insertionSort startLe l2).symm
  have hd1 : (List.insertionSort startLe l1).Pairwise fun a b =>
      a.start_time ≠ b.start_time :=
    ((List.perm_insertionSort startLe l1).pairwise_iff hsymm).2 hd
  have hd2 : (List.insertionSort startLe l2).Pairwise fun a b =>
      a.start_time ≠ b.start_time :=
    (hp.pairwise_iff hsymm).1 hd1
  have hs1 := List.sorted_insertionSort startLe l1
  have hs2 := List.sorted_insertionSort startLe l2
  have hlt1 : (List.insertionSort startLe l1).Pairwise startLt :=
    (hs1.and hd1).imp fun h => lt_of_le_of_ne h.1 h.2
  have hlt2 : (List.insertionSort startLe l2).Pairwise startLt :=
    (hs2.and hd2).imp fun h => lt_of_le_of_ne h.1 h.2
  have hsort : List.insertionSort startLe l1 = List.insertionSort startLe l2 :=
    List.eq_of_perm_of_sorted hp hlt1 hlt2
  rw [calculate_total_gap, calculate_total_gap, hperm.length_eq, hsort]

/-- Witness for the amended C10 at a concrete permutation with distinct
start times. -/
theorem total_gap_perm_invariant_witness :
    calculate_total_gap [tgA, tgC] = calculate_total_gap [tgC, tgA] :=
  total_gap_perm_invariant_of_distinct_starts _ _ (List.Perm.swap _ _ _)
    (by norm_num [tgA, tgC, List.pairwise_cons])

lemma ilpEl_eval : eligibleCourses [ilpA, ilpB, ilpC] [] = [ilpA, ilpB, ilpC] := by
  simp [eligibleCourses, prereqsMet, ilpA, ilpB, ilpC]

lemma ilp_obj_ttf_eval :
    ilpObjective (3 / 5) ([ilpA, ilpB, ilpC].zip [true, true, false]) = 2 := by
  norm_num [ilpObjective, ilpCredits, ilpGapSum, ilpGapAgainst, ilpA, ilpB, ilpC, List.zip,
    List.zipWith]

lemma ilp_feasible_all (ys : List Bool) : ilpFeasible ([ilpA, ilpB, ilpC].zip ys) := by
  match ys with
  | [] => simp [ilpFeasible, List.zip]
  | [a] =>
    norm_num [ilpFeasible, List.zip, List.zipWith, List.pairwise_cons, Course.conflicts_with,
      ilpA, ilpB, ilpC]
  | [a, b] =>
    norm_num [ilpFeasible, List.zip, List.zipWith, List.pairwise_cons, Course.conflicts_with,
      ilpA, ilpB, ilpC]
  | a :: b :: c :: rest =>
    norm_num [ilpFeasible, List.zip, List.zipWith, List.pairwise_cons, Course.conflicts_with,
      ilpA, ilpB, ilpC]

lemma ilp_obj_le_ttf (ys : List Bool)
    (hlen : ys.length = ([ilpA, ilpB, ilpC] : List Course).length) :
    ilpObjective (3 / 5) ([ilpA, ilpB, ilpC].zip ys) ≤ 2 := by
  obtain ⟨a, b, c, rfl⟩ := List.length_eq_three.1 hlen
  rcases a with _ | _ <;> rcases b with _ | _ <;> rcases c with _ | _ <;>
    norm_num [ilpObjective, ilpCredits, ilpGapSum, ilpGapAgainst, ilpA, ilpB, ilpC, List.zip,
      List.zipWith]

lemma ilp_solves_unique (xs : List Bool)
    (hs : ilpSolves (3 / 5) [ilpA, ilpB, ilpC] xs) : xs = [true, true, false] := by
  obtain ⟨hlen, _, hopt⟩ := hs
  have h2 := hopt [true, true, false] rfl (ilp_feasible_all _)
  rw [ilp_obj_ttf_eval] at h2
  obtain ⟨a, b, c, rfl⟩ := List.length_eq_three.1 hlen
  rcases a with _ | _ <;> rcases b with _ | _ <;> rcases c with _ | _ <;>
    [skip; skip; skip; skip; skip; skip; rfl; skip] <;> exfalso <;>
    norm_num [ilpObjective, ilpCredits, ilpGapSum, ilpGapAgainst, ilpA, ilpB, ilpC, List.zip,
      List.zipWith] at h2

lemma ilp_returns_eval (res : List Course × ℤ × ℚ)
    (h : ilp_schedule_returns [ilpA, ilpB, ilpC] [] (3 / 5) res) :
    res = ([ilpA, ilpB], 2, 0) := by
  rw [ilp_schedule_returns] at h
  rw [if_neg (by simp)] at h
  simp only [ilpEl_eval] at h
  rw [if_neg (by simp)] at h
  obtain ⟨xs, hsolves, hres⟩ := h
  have hxs := ilp_solves_unique xs hsolves
  subst hxs
  rw [hres]
  norm_num [selFromAssign, List.filterMap_cons, List.zip, List.zipWith,
    calculate_total_credits, calculate_total_gap, sumConsecGaps, List.insertionSort,
    List.orderedInsert, startLe, Course.gap_to, ilpA, ilpB, ilpC]

/-- Claim C7 (code bug): `ilp_schedule` is not exact for the combined
objective `total_credits - gap_penalty * calculate_total_gap`.  On the
catalog A(0-1, 1cr), B(1-2, 1cr), C(3-4, 1cr) with `gap_penalty = 3/5`,
the unique ILP optimum selects `{A, B}` (realized objective `2`), while
the pairwise conflict-free eligible subset `{A, B, C}` realizes the
strictly better objective `3 - 3/5`: the ILP objective charges the gap
of every chronologically ordered selected pair (here also the
non-consecutive pair A-C), not only consecutive pairs as
`calculate_total_gap` does. -/
theorem ilp_combined_not_exact_at_failing_input :
    (∀ res, ilp_schedule_returns [ilpA, ilpB, ilpC] [] (3 / 5) res →
      res = ([ilpA, ilpB], 2, 0) ∧
      ((res.2.1 : ℚ) - (3 / 5) * res.2.2 <
        (calculate_total_credits [ilpA, ilpB, ilpC] : ℚ) -
          (3 / 5) * calculate_total_gap [ilpA, ilpB, ilpC])) ∧
    pairwiseConflictFree [ilpA, ilpB, ilpC] ∧
    eligibleCourses [ilpA, ilpB, ilpC] [] = [ilpA, ilpB, ilpC] := by
  refine ⟨?_, ?_, ilpEl_eval⟩
  · intro res hres
    have h := ilp_returns_eval res hres
    refine ⟨h, ?_⟩
    rw [h]
    norm_num [calculate_total_credits, calculate_total_gap, sumConsecGaps,
      List.insertionSort, List.orderedInsert, startLe, Course.gap_to, ilpA, ilpB, ilpC]
  · rw [pairwiseConflictFree]
    refine List.Pairwise.cons ?_ (List.Pairwise.cons ?_ (List.pairwise_singleton _ _))
    · intro b hb
      rcases List.mem_cons.1 hb with h' | h'
      · subst h'
        rw [conflicts_with_false_iff]
        norm_num [ilpA, ilpB]
      · rw [List.mem_singleton] at h'
        subst h'
        rw [conflicts_with_false_iff]
        norm_num [ilpA, ilpC]
    · intro b hb
      rw [List.mem_singleton] at hb
      subst hb
      rw [conflicts_with_false_iff]
      norm_num [ilpB, ilpC]

/-- Witness for C7: a concrete `ilp_schedule` return value (the unique
optimal assignment `[true, true, false]`) discharging the relational
hypothesis of the theorem. -/
theorem ilp_combined_not_exact_witness :
    ilp_schedule_returns [ilpA, ilpB, ilpC] [] (3 / 5) ([ilpA, ilpB], 2, 0) ∧
    (((2 : ℤ) : ℚ) - (3 / 5) * (0 : ℚ) <
      (calculate_total_credits [ilpA, ilpB, ilpC] : ℚ) -
        (3 / 5) * calculate_total_gap [ilpA, ilpB, ilpC]) := by
  have hret : ilp_schedule_returns [ilpA, ilpB, ilpC] [] (3 / 5) ([ilpA, ilpB], 2, 0) := by
    rw [ilp_schedule_returns]
    rw [if_neg (by simp)]
    simp only [ilpEl_eval]
    rw [if_neg (by simp)]
    refine ⟨[true, true, false], ⟨rfl, ilp_feasible_all _, ?_⟩, ?_⟩
    · intro ys hlen hfeas
      rw [ilp_obj_ttf_eval]
      exact ilp_obj_le_ttf ys hlen
    · norm_num [selFromAssign, List.filterMap_cons, List.zip, List.zipWith,
        calculate_total_credits, calculate_total_gap, sumConsecGaps, List.insertionSort,
        List.orderedInsert, startLe, Course.gap_to, ilpA, ilpB, ilpC]
  have h := (ilp_combined_not_exact_at_failing_input.1 ([ilpA, ilpB], 2, 0) hret).2
  exact ⟨hret, by simpa using h⟩

lemma bbMaxChildren_bound_beats {eligible : List Course} {bc : ℤ} {node nd : BBNode}
    (h : nd ∈ bbMaxChildren eligible bc node) : (bc : ℚ) < nd.bound := by
  rw [bbMaxChildren] at h
  rcases hd : eligible.drop node.level with _ | ⟨cur, tl⟩
  · rw [hd] at h
    simp at h
  · rw [hd] at h
    rcases List.mem_append.1 h with h' | h'
    · simp only [] at h'
      split at h'
      · rw [List.mem_singleton] at h'
        subst h'
        assumption
      · simp at h'
    · simp only [] at h'
      split at h'
      · simp at h'
      · split at h'
        · rw [List.mem_singleton] at h'
          subst h'
          assumption
        · simp at h'

lemma bbCombChildren_bound_beats {p : ℚ} {eligible : List Course} {bo : Option ℚ}
    {node nd : BBNode} (h : nd ∈ bbCombChildren p eligible bo node) :
    beatsHigh bo (nd.bound - p * nd.gap) = true := by
  rw [bbCombChildren] at h
  rcases hd : eligible.drop node.level with _ | ⟨cur, tl⟩
  · rw [hd] at h
    simp at h
  · rw [hd] at h
    rcases List.mem_append.1 h with h' | h'
    · simp only [] at h'
      split at h'
      · rw [List.mem_singleton] at h'
        subst h'
        assumption
      · simp at h'
    · simp only [] at h'
      split at h'
      · simp at h'
      · split at h'
        · rw [List.mem_singleton] at h'
          subst h'
          assumption
        · simp at h'

lemma iStackOf_append (c : Course) :
    ∀ (pre : List Course) (k : ℕ),
      iStackOf k (pre ++ [c]) = iNodeOf (k + pre.length) c :: iStackOf k pre
  | [], k => by simp [iStackOf]
  | p :: pre, k => by
    rw [List.cons_append, iStackOf, iStackOf_append c pre (k + 1), iStackOf]
    simp only [List.cons_append, List.length_cons]
    congr 2
    omega

lemma iStackOf_gap_zero : ∀ (l : List Course) (k : ℕ) (nd : BBNode),
    nd ∈ iStackOf k l → nd.gap = 0
  | [], _, _, h => by simp [iStackOf] at h
  | c :: rest, k, nd, h => by
    rw [iStackOf] at h
    rcases List.mem_append.1 h with h' | h'
    · exact iStackOf_gap_zero rest (k + 1) nd h'
    · rw [List.mem_singleton] at h'
      subst h'
      rfl

lemma ctg_singleton (c : Course) : calculate_total_gap [c] = 0 := by
  rw [calculate_total_gap]
  simp

lemma bbMinLoop_phaseC (L : List Course) :
    ∀ fuel stack sol cr bad, (∀ nd ∈ stack, (0 : ℚ) ≤ nd.gap) →
      (bbMinLoop L fuel stack sol cr (some 0) bad).2 = bad
  | 0, _, _, _, _, _ => rfl
  | _ + 1, [], _, _, _, _ => rfl
  | f + 1, node :: rest, sol, cr, bad, hstack => by
    rw [bbMinLoop]
    have h0 : beatsLow (some 0) node.gap = false := by
      rw [beatsLow]
      exact decide_eq_false (not_lt.2 (hstack node (List.mem_cons_self _ _)))
    rw [h0]
    simp only [Bool.false_eq_true, if_false]
    exact bbMinLoop_phaseC L f rest sol cr bad
      fun nd h => hstack nd (List.mem_cons_of_mem _ h)

lemma bbMinLoop_phaseB (L : List Course) :
    ∀ fuel sol cr, (bbMinLoop L fuel (iStackOf 0 L) sol cr none false).2 = false := by
  intro fuel sol cr
  rcases List.eq_nil_or_concat L with h | ⟨pre, c, h⟩
  · subst h
    cases fuel <;> rfl
  · rw [h, List.concat_eq_append, iStackOf_append]
    cases fuel with
    | zero => rfl
    | succ f =>
      rw [bbMinLoop]
      have hdrop : List.drop (iNodeOf (0 + pre.length) c).level (pre ++ [c]) = [] := by
        refine List.drop_eq_nil_of_le ?_
        simp [iNodeOf]
      rw [if_pos (show beatsLow none (iNodeOf (0 + pre.length) c).gap = true from rfl), hdrop]
      rw [if_pos (Or.inl ⟨by simp [iNodeOf], rfl⟩)]
      have hgap : (iNodeOf (0 + pre.length) c).gap = 0 := rfl
      rw [hgap]
      exact bbMinLoop_phaseC (pre ++ [c]) f _ _ _ false
        fun nd hnd => le_of_eq (iStackOf_gap_zero pre 0 nd hnd).symm

lemma bbMinLoop_phaseA (L : List Course) :
    ∀ (suf pre : List Course) (fuel : ℕ) (sol : List Course) (cr : ℤ),
      L = pre ++ suf →
      (bbMinLoop L fuel (eNode pre.length :: iStackOf 0 pre) sol cr none false).2 = false
  | [], pre, fuel, sol, cr, hL => by
    cases fuel with
    | zero => rfl
    | succ f =>
      rw [bbMinLoop]
      have hdrop : List.drop (eNode pre.length).level L = [] := by
        rw [hL, List.append_nil]
        exact List.drop_eq_nil_of_le (le_of_eq rfl)
      rw [if_pos (show beatsLow none (eNode pre.length).gap = true from rfl), hdrop]
      rw [if_neg (by simp [eNode])]
      have hLpre : L = pre := by rw [hL, List.append_nil]
      rw [hLpre]
      exact bbMinLoop_phaseB pre f sol cr
  | c :: suf', pre, fuel, sol, cr, hL => by
    cases fuel with
    | zero => rfl
    | succ f =>
      rw [bbMinLoop]
      have hdrop : List.drop (eNode pre.length).level L = c :: suf' := by
        rw [hL]
        exact List.drop_left pre (c :: suf')
      rw [if_pos (show beatsLow none (eNode pre.length).gap = true from rfl), hdrop]
      have hch : bbMinChildren L (eNode pre.length) =
          [eNode (pre.length + 1), iNodeOf pre.length c] := by
        rw [bbMinChildren, hdrop]
        simp [eNode, iNodeOf, ctg_singleton]
      simp only []
      rw [hch]
      have hIH := bbMinLoop_phaseA L suf' (pre ++ [c]) f sol cr
        (by rw [hL, List.append_assoc, List.singleton_append])
      rw [iStackOf_append] at hIH
      simp only [List.length_append, List.length_singleton, zero_add] at hIH
      exact hIH

/-- Claim C5: in every branch-and-bound variant, a child node is pushed
onto the search stack only if its freshly computed bound can still beat
the current incumbent (in the code's own pruning sense: bound above the
incumbent credits for max_credits, `bound - gap_penalty * gap` above the
incumbent objective for combined, gap below the incumbent gap for
min_gaps).  For max_credits and combined this is the literal push-time
guard; the min_gaps variant pushes both children unconditionally, but
an incumbent only ever exists with gap `0`, and then no node survives
the pop-time prune to generate children, so no run ever pushes a child
whose bound cannot beat the incumbent. -/
theorem bnb_children_pushed_only_if_bound_beats :
    (∀ (eligible : List Course) (bc : ℤ) (node nd : BBNode),
      nd ∈ bbMaxChildren eligible bc node → (bc : ℚ) < nd.bound) ∧
    (∀ (p : ℚ) (eligible : List Course) (bo : Option ℚ) (node nd : BBNode),
      nd ∈ bbCombChildren p eligible bo node →
        beatsHigh bo (nd.bound - p * nd.gap) = true) ∧
    ∀ (catalog : List Course) (completed : List String),
      bnbMinGapsPushViolation catalog completed = false := by
  refine ⟨fun _ _ _ _ h => bbMaxChildren_bound_beats h,
    fun _ _ _ _ _ h => bbCombChildren_bound_beats h, ?_⟩
  intro catalog completed
  rw [bnbMinGapsPushViolation]
  split
  · rfl
  · exact bbMinLoop_phaseA _ _ [] _ [] 0 rfl

/-- Witness for C5: a concretely computed pushed child of the
max-credits search whose bound beats the incumbent, and a concrete
min-gaps run with no push violation. -/
theorem bnb_children_pushed_witness :
    ((0 : ℤ) : ℚ) < (⟨1, [cmbA], 1, 0, 1⟩ : BBNode).bound ∧
    bnbMinGapsPushViolation [cmbA] [] = false := by
  have hch : bbMaxChildren [cmbA] 0 ⟨0, [], 0, 0, 1⟩ = [⟨1, [cmbA], 1, 0, 1⟩] := by
    norm_num [bbMaxChildren, calculate_upper_bound, remainingCredits, ctg_singleton, cmbA]
  refine ⟨bnb_children_pushed_only_if_bound_beats.1 [cmbA] 0 ⟨0, [], 0, 0, 1⟩ _ ?_,
    bnb_children_pushed_only_if_bound_beats.2.2 [cmbA] []⟩
  rw [hch]
  exact List.mem_singleton.2 rfl
